import Mathlib

/-!
Verification of the TinyGo optimizer passes (src/compiler/optimizer.go) and the
precise garbage collector runtime (src/src/runtime/gc_precise.go, wasm runtime
support file) against the natural-language specification.

The Go source is shallowly embedded: each pass becomes a pure Lean function
over an explicit model of the LLVM values it inspects, and the GC mark phase
becomes a fuel-indexed state-passing function over a block-state heap model.
Machine integers (Go uintptr on the 32-bit wasm target) are modelled as Nat,
with an explicit mod 2^32 where wraparound matters.
-/

namespace TinyGo

/-! ## Bit utilities

Go bit-clear x &^ m (AND NOT).  For natural numbers, the bits of x that are
also set in m are exactly x &&& m, and they contribute x &&& m to the value of
x, so clearing them yields x - (x &&& m).  This avoids a bitwise complement,
which is not total on Nat.
-/

/-- Go expression x &^ m (bit clear): x with every bit of m cleared. -/
def bitClear (x m : Nat) : Nat := x - (x &&& m)

/-- Clearing the low b bits is subtraction of the remainder mod 2 ^ b. -/
theorem bitClear_two_pow_sub_one (x b : Nat) :
    bitClear x (2 ^ b - 1) = x - x % 2 ^ b := by
  unfold bitClear
  rw [Nat.and_pow_two_sub_one_eq_mod]

/-- Clearing the low b bits rounds down to a multiple of 2 ^ b. -/
theorem bitClear_two_pow_sub_one_eq_div_mul (x b : Nat) :
    bitClear x (2 ^ b - 1) = 2 ^ b * (x / 2 ^ b) := by
  rw [bitClear_two_pow_sub_one]
  have h := Nat.div_add_mod x (2 ^ b)
  omega

/-! ## Use-graph model (optimizer.go)

An SSA value v is analysed through the collection of instructions that use it
(getUses in the Go source).  The model records, for each use, exactly the data
the analyses doesEscape / isReadOnly / hasFlag inspect.
-/

/-- Opaque identifier of an LLVM type (the analyses never look inside). -/
abbrev LLVMType := Nat

/-- One declared parameter position of a called function, as consulted by
hasFlag for the value v under analysis: whether the call operand at this
position equals v, and whether the function carries the nocapture resp.
readonly enum attribute at this position. -/
structure ParamUse where
  eqV : Bool
  nocapture : Bool
  readonly : Bool

/-- The called value of a call instruction using v, as inspected by hasFlag:
either a function (with per-parameter data for each declared parameter
position), or not a function (e.g. a call through a function pointer), in
which case no parameter attributes exist and only the positions whose operand
equals v are recorded. -/
inductive Callee where
  | fn (params : List ParamUse)
  | notFn (argsEqV : List Bool)

mutual
/-- A use of the SSA value v, distinguishing the instruction kinds handled by
doesEscape and isReadOnly in optimizer.go.  gep and bitcast carry the uses of
their own result (the analyses recurse into those); store records whether v is
operand 0 (the stored value); call carries the callee data for hasFlag;
bitcast also records its result type (read by OptimizeAllocs). -/
inductive Use where
  | load
  | icmp
  | store (vIsStoredValue : Bool)
  | call (callee : Callee)
  | gep (uses : UseList)
  | bitcast (ty : LLVMType) (uses : UseList)
  | other

/-- The list of uses of a value (getUses in the Go source). -/
inductive UseList where
  | nil
  | cons (u : Use) (us : UseList)
end

/-- hasFlag (optimizer.go): the called value must be a function, and every
declared parameter position whose operand equals the analysed value must carry
the queried enum attribute (selected by the projection flag). -/
def hasFlag (flag : ParamUse → Bool) : Callee → Bool
  | .fn params => params.all fun p => !p.eqV || flag p
  | .notFn _ => false

mutual
/-- doesEscape (optimizer.go), single-use case: gep and bitcast escape when
their result escapes; a load does not escape; a store escapes exactly when v
is the stored value (operand 0); a call escapes unless hasFlag grants
nocapture at every position passing v; an icmp does not escape; any other
instruction conservatively escapes. -/
def useEscapes : Use → Bool
  | .gep us => doesEscape us
  | .bitcast _ us => doesEscape us
  | .load => false
  | .store vIsStored => vIsStored
  | .call c => !hasFlag (fun p => p.nocapture) c
  | .icmp => false
  | .other => true

/-- doesEscape (optimizer.go): a value escapes iff some use of it escapes. -/
def doesEscape : UseList → Bool
  | .nil => false
  | .cons u us => useEscapes u || doesEscape us
end

mutual
/-- isReadOnly (optimizer.go), single-use case: gep recurses; a call requires
the readonly attribute at every position passing the value; any other use is
conservatively treated as a write. -/
def useReadOnly : Use → Bool
  | .gep us => isReadOnly us
  | .call c => hasFlag (fun p => p.readonly) c
  | _ => false

/-- isReadOnly (optimizer.go): the value is never stored to iff every use is
read-only. -/
def isReadOnly : UseList → Bool
  | .nil => true
  | .cons u us => useReadOnly u && isReadOnly us
end

/-! ## Claim C2: characterization of doesEscape

specCallSafe / specSafeUse transcribe the wording of claim C2; they are the
spec-side definitions to be compared with doesEscape.  amendedCallSafe /
amendedSafeUse state the amended characterization (the call clause
additionally requires the called value to be a function, matching hasFlag).
-/

/-- Call clause as worded in claim C2: every parameter position whose operand
equals v carries the nocapture attribute (vacuously satisfied when v occurs at
no parameter position, e.g. when v is only the called value itself). -/
def specCallSafe : Callee → Bool
  | .fn params => params.all fun p => !p.eqV || p.nocapture
  | .notFn argsEqV => argsEqV.all fun b => !b

mutual
/-- Claim C2 as worded: a use is safe when it is a load; an icmp; a store in
which v is not the stored value; a call satisfying specCallSafe; or a gep or
bitcast whose result is itself safe.  Every other use is unsafe. -/
def specSafeUse : Use → Bool
  | .load => true
  | .icmp => true
  | .store vIsStored => !vIsStored
  | .call c => specCallSafe c
  | .gep us => specSafeUses us
  | .bitcast _ us => specSafeUses us
  | .other => false

/-- Claim C2 as worded, over a use list: all uses safe. -/
def specSafeUses : UseList → Bool
  | .nil => true
  | .cons u us => specSafeUse u && specSafeUses us
end

/-- Amended call clause: the called value must be a function and every
parameter position whose operand equals v must carry nocapture; a call whose
called value is not a function makes v escape. -/
def amendedCallSafe : Callee → Bool
  | .fn params => params.all fun p => !p.eqV || p.nocapture
  | .notFn _ => false

mutual
/-- Amended claim C2, single-use case: as specSafeUse but with the corrected
call clause. -/
def amendedSafeUse : Use → Bool
  | .load => true
  | .icmp => true
  | .store vIsStored => !vIsStored
  | .call c => amendedCallSafe c
  | .gep us => amendedSafeUses us
  | .bitcast _ us => amendedSafeUses us
  | .other => false

/-- Amended claim C2 over a use list. -/
def amendedSafeUses : UseList → Bool
  | .nil => true
  | .cons u us => amendedSafeUse u && amendedSafeUses us
end

mutual
/-- A use escapes exactly when it is not safe in the amended sense. -/
theorem useEscapes_eq_not_amendedSafe (u : Use) :
    useEscapes u = !amendedSafeUse u := by
  cases u with
  | load => rfl
  | icmp => rfl
  | store b => cases b <;> rfl
  | call c => cases c <;> simp [useEscapes, amendedSafeUse, hasFlag, amendedCallSafe]
  | gep us => simp [useEscapes, amendedSafeUse, doesEscape_eq_not_amendedSafe us]
  | bitcast t us => simp [useEscapes, amendedSafeUse, doesEscape_eq_not_amendedSafe us]
  | other => rfl

/-- A value escapes exactly when some use is not safe in the amended sense. -/
theorem doesEscape_eq_not_amendedSafe (us : UseList) :
    doesEscape us = !amendedSafeUses us := by
  cases us with
  | nil => rfl
  | cons u us =>
      simp [doesEscape, amendedSafeUses, useEscapes_eq_not_amendedSafe u,
        doesEscape_eq_not_amendedSafe us]
end

/-- C2 counterexample: a value whose single use is a call through a
non-function called value, with the value occurring at no parameter position
(it is the called value itself).  doesEscape reports an escape (hasFlag
returns false for a non-function callee), yet every use satisfies the safe
enumeration exactly as worded in the claim, so the claimed equivalence fails
here. -/
theorem doesEscape_claim_counterexample :
    doesEscape (.cons (.call (.notFn [])) .nil) = true ∧
    specSafeUses (.cons (.call (.notFn [])) .nil) = true :=
  ⟨rfl, rfl⟩

/-- C2 (amended): doesEscape v returns false if and only if every use of v is
one of: a load; an icmp; a store in which v is not the stored value; a call
whose called value is a function and in which every parameter position whose
operand equals v carries nocapture; or a gep or bitcast whose result itself
does not escape.  A use of any other instruction kind, a store of v as the
stored value, a call whose called value is not a function, or a call lacking
nocapture at a matching position makes doesEscape return true. -/
theorem doesEscape_false_iff_amendedSafe (us : UseList) :
    doesEscape us = false ↔ amendedSafeUses us = true := by
  rw [doesEscape_eq_not_amendedSafe]
  cases amendedSafeUses us <;> simp

/-! ## Claim C1: OptimizeAllocs (optimizer.go) -/

/-- One call to runtime.alloc: the size operand (some n when the operand is a
constant, with n its zero-extended value; none when it is not a constant), the
result type of the call (an i8 pointer), and the uses of the call result. -/
structure AllocCall where
  sizeOp : Option Nat
  ty : LLVMType
  uses : UseList

/-- Instructions OptimizeAllocs inserts at the start of the entry block of the
enclosing function: an alloca of an array of sizeInWords integers of elemBits
bits each, a store of the zero value of the array type into the alloca, and a
bitcast of the alloca to the type of the replaced value. -/
inductive EntryInst where
  | alloca (elemBits : Nat) (sizeInWords : Nat)
  | storeZero
  | bitcastTo (ty : LLVMType)

/-- Description of a successful heap-to-stack promotion. -/
structure StackPromotion where
  /-- Instructions inserted before the first instruction of the entry block,
  in insertion order. -/
  entryInsts : List EntryInst
  /-- Value replacing every use of the effective value (the final bitcast of
  the alloca). -/
  replacement : EntryInst
  /-- Whether the distinct single bitcast use was erased. -/
  erasedDistinctBitcast : Bool
  /-- Whether the runtime.alloc call itself was erased. -/
  erasedAllocCall : Bool

/-- Outcome of OptimizeAllocs on one runtime.alloc call. -/
inductive AllocResult where
  | unchanged
  | promoted (p : StackPromotion)

/-- Effective defined value of a runtime.alloc call (optimizer.go): when the
call has exactly one use and that use is a bitcast, the bitcast result (its
type and its uses; third component true); otherwise the call itself. -/
def allocEffective (a : AllocCall) : LLVMType × UseList × Bool :=
  match a.uses with
  | .cons (.bitcast t us) .nil => (t, us, true)
  | _ => (a.ty, a.uses, false)

/-- OptimizeAllocs (optimizer.go) on one runtime.alloc call.  alignment is
the ABI alignment of the i8 pointer type on the target.  A non-constant size
operand or a size above 256 bytes skips the call; otherwise, when the
effective value does not escape, the call (and the distinct bitcast, if any)
is erased, an alloca of ceil(size / alignment) integers of alignment*8 bits
is inserted at the start of the entry block, zero-initialized with a single
store, and every use of the effective value is replaced with a bitcast of the
alloca to the original type. -/
def optimizeAllocCall (alignment : Nat) (a : AllocCall) : AllocResult :=
  match a.sizeOp with
  | none => .unchanged
  | some size =>
    if size > 256 then .unchanged
    else
      let eff := allocEffective a
      if doesEscape eff.2.1 then .unchanged
      else
        .promoted
          { entryInsts := [.alloca (alignment * 8) ((size + alignment - 1) / alignment),
                           .storeZero, .bitcastTo eff.1],
            replacement := .bitcastTo eff.1,
            erasedDistinctBitcast := eff.2.2,
            erasedAllocCall := true }

/-- C1: a runtime.alloc call whose size operand is a constant n with n at most
256 bytes and whose effective value (the single use when that use is a
bitcast, otherwise the call itself) does not escape is erased (together with
the distinct bitcast, if any); an alloca of an array of ceil(n / alignment)
integers of alignment*8 bits is inserted at the start of the entry block of
the enclosing function and zero-initialized with a single store, and every use
of the effective value is replaced with a bitcast of the alloca to the
original type.  A call whose size operand is not a constant or exceeds 256 is
left unchanged. -/
theorem optimizeAllocs_correct (alignment : Nat) (a : AllocCall) (n : Nat) :
    (a.sizeOp = none → optimizeAllocCall alignment a = .unchanged) ∧
    (a.sizeOp = some n → 256 < n → optimizeAllocCall alignment a = .unchanged) ∧
    (a.sizeOp = some n → n ≤ 256 → doesEscape (allocEffective a).2.1 = false →
      optimizeAllocCall alignment a = .promoted
        { entryInsts := [.alloca (alignment * 8) ((n + alignment - 1) / alignment),
                         .storeZero, .bitcastTo (allocEffective a).1],
          replacement := .bitcastTo (allocEffective a).1,
          erasedDistinctBitcast := (allocEffective a).2.2,
          erasedAllocCall := true }) := by
  refine ⟨fun h => ?_, fun h hn => ?_, fun h hn hesc => ?_⟩
  · simp [optimizeAllocCall, h]
  · simp [optimizeAllocCall, h, hn]
  · simp [optimizeAllocCall, h, Nat.not_lt.mpr hn, hesc]

/-- C1 witness: a 16-byte constant allocation whose single use is a bitcast
whose result is only loaded from, with 4-byte alignment, is promoted to an
entry-block alloca of a 4-element array of 32-bit integers. -/
theorem optimizeAllocs_correct_witness :
    optimizeAllocCall 4
        ⟨some 16, 7, .cons (.bitcast 9 (.cons .load .nil)) .nil⟩ =
      .promoted
        { entryInsts := [.alloca 32 4, .storeZero, .bitcastTo 9],
          replacement := .bitcastTo 9,
          erasedDistinctBitcast := true,
          erasedAllocCall := true } :=
  (optimizeAllocs_correct 4
    ⟨some 16, 7, .cons (.bitcast 9 (.cons .load .nil)) .nil⟩ 16).2.2
    rfl (by decide) rfl

/-! ## Claim C4: OptimizeStringToBytes (optimizer.go) -/

/-- A use of a runtime.stringToBytes call: an extractvalue of integer type
(len or cap), an extractvalue of pointer type (the byte pointer, carrying its
own uses for the isReadOnly check), or a use that is not an extractvalue. -/
inductive STBUse where
  | extractInt
  | extractPtr (uses : UseList)
  | nonExtract

/-- Operands of the stringToBytes call used as replacement values. -/
inductive STBVal where
  | strptr
  | strlen

/-- Fate of one use of the call after the pass: erased with all of its own
uses replaced by the named operand, or left in place. -/
inductive STBFate where
  | replacedBy (v : STBVal)
  | kept

/-- Loop of OptimizeStringToBytes over the uses of one call (optimizer.go):
an integer-typed extractvalue is replaced by strlen and erased; a
pointer-typed extractvalue is replaced by strptr and erased only when it is
read-only; a non-extractvalue use, and a pointer extractvalue that is not
read-only, are kept and clear the convertedAllUses flag. -/
def stbLoop : List STBUse → List STBFate × Bool
  | [] => ([], true)
  | u :: us =>
    let r := stbLoop us
    match u with
    | .nonExtract => (.kept :: r.1, false)
    | .extractInt => (.replacedBy .strlen :: r.1, r.2)
    | .extractPtr uu =>
        if isReadOnly uu then (.replacedBy .strptr :: r.1, r.2)
        else (.kept :: r.1, false)

/-- Result of OptimizeStringToBytes on one call: the fate of each use, in
order, and whether the call itself was erased. -/
structure STBResult where
  fates : List STBFate
  callErased : Bool

/-- OptimizeStringToBytes (optimizer.go) on one runtime.stringToBytes call:
rewrite the uses and erase the call exactly when every use was converted. -/
def optimizeSTBCall (uses : List STBUse) : STBResult :=
  { fates := (stbLoop uses).1, callErased := (stbLoop uses).2 }

/-- Claim-side description of the fate of one use. -/
def stbFateSpec : STBUse → STBFate
  | .extractInt => .replacedBy .strlen
  | .extractPtr uu => if isReadOnly uu then .replacedBy .strptr else .kept
  | .nonExtract => .kept

/-- Claim-side predicate: the use is an extractvalue that got rewritten. -/
def stbRewritten : STBUse → Prop
  | .extractInt => True
  | .extractPtr uu => isReadOnly uu = true
  | .nonExtract => False

instance stbRewrittenDec : DecidablePred stbRewritten
  | .extractInt => .isTrue trivial
  | .extractPtr uu => inferInstanceAs (Decidable (isReadOnly uu = true))
  | .nonExtract => .isFalse fun h => h

/-- The rewritten uses are exactly as described per use kind. -/
theorem stbLoop_fates (uses : List STBUse) :
    (stbLoop uses).1 = uses.map stbFateSpec := by
  induction uses with
  | nil => rfl
  | cons u us ih =>
      cases u with
      | extractInt => simp [stbLoop, stbFateSpec, ih]
      | nonExtract => simp [stbLoop, stbFateSpec, ih]
      | extractPtr uu =>
          by_cases hro : isReadOnly uu = true <;>
            simp [stbLoop, stbFateSpec, hro, ih]

/-- The convertedAllUses flag is set exactly when every use was rewritten. -/
theorem stbLoop_flag (uses : List STBUse) :
    (stbLoop uses).2 = true ↔ ∀ u ∈ uses, stbRewritten u := by
  induction uses with
  | nil => simp [stbLoop]
  | cons u us ih =>
      cases u with
      | extractInt => simpa [stbLoop, stbRewritten] using ih
      | nonExtract => simp [stbLoop, stbRewritten]
      | extractPtr uu =>
          by_cases hro : isReadOnly uu = true <;>
            simp [stbLoop, stbRewritten, hro, ih]

/-- C4: OptimizeStringToBytes replaces each integer-typed extractvalue with
strlen and erases it; replaces each pointer-typed extractvalue with strptr
and erases it exactly when it is read-only, keeping it otherwise; keeps every
non-extractvalue use; and erases the stringToBytes call itself if and only if
every use was an extractvalue that got rewritten. -/
theorem optimizeStringToBytes_correct (uses : List STBUse) :
    List.Forall₂ (fun u f => f = stbFateSpec u) uses (optimizeSTBCall uses).fates ∧
    ((optimizeSTBCall uses).callErased = true ↔ ∀ u ∈ uses, stbRewritten u) := by
  constructor
  · show List.Forall₂ _ _ (stbLoop uses).1
    rw [stbLoop_fates]
    induction uses with
    | nil => exact List.Forall₂.nil
    | cons u us ih => exact List.Forall₂.cons rfl ih
  · exact stbLoop_flag uses

/-- C4 witness: a call with an integer extract, a read-only pointer extract
(single use, a call passing it at a readonly parameter position), and a
non-read-only pointer extract keeps the call; a call with only rewritten
extracts is erased. -/
theorem optimizeStringToBytes_correct_witness :
    (optimizeSTBCall
        [.extractInt,
         .extractPtr (.cons (.call (.fn [⟨true, false, true⟩])) .nil),
         .extractPtr (.cons (.call (.fn [⟨true, false, false⟩])) .nil)]).callErased
      = false ∧
    (optimizeSTBCall [.extractInt]).callErased = true := by
  constructor
  · have h := (optimizeStringToBytes_correct
      [.extractInt,
       .extractPtr (.cons (.call (.fn [⟨true, false, true⟩])) .nil),
       .extractPtr (.cons (.call (.fn [⟨true, false, false⟩])) .nil)]).2
    have hnot : ¬ ∀ u ∈ [STBUse.extractInt,
        .extractPtr (.cons (.call (.fn [⟨true, false, true⟩])) .nil),
        .extractPtr (.cons (.call (.fn [⟨true, false, false⟩])) .nil)],
        stbRewritten u := by decide
    have hne : (optimizeSTBCall
        [STBUse.extractInt,
         .extractPtr (.cons (.call (.fn [⟨true, false, true⟩])) .nil),
         .extractPtr (.cons (.call (.fn [⟨true, false, false⟩])) .nil)]).callErased
        ≠ true := fun hc => hnot (h.mp hc)
    simpa using hne
  · exact (optimizeStringToBytes_correct [.extractInt]).2.mpr (by decide)

/-! ## Claim C5: OptimizeMaps (optimizer.go) -/

/-- A use of a runtime.hashmapMake call: a call to runtime.hashmapBinarySet,
a call to runtime.hashmapStringSet, a call to any other function, or a use
that is not a call instruction. -/
inductive MapUse where
  | callBinarySet
  | callStringSet
  | callOther
  | nonCall

/-- Classification used by the OptimizeMaps loop: a use is a safe update
exactly when it is a call to hashmapBinarySet or hashmapStringSet. -/
def mapUseSafe : MapUse → Bool
  | .callBinarySet => true
  | .callStringSet => true
  | .callOther => false
  | .nonCall => false

/-- Result of OptimizeMaps on one hashmapMake call: for each use, whether it
was erased, and whether the make call itself was erased. -/
structure MapSiteResult where
  erasedUses : List Bool
  erasedMake : Bool

/-- OptimizeMaps (optimizer.go) on one hashmapMake call: classify the uses;
when no use is unknown, erase every update call and then the make call;
otherwise leave everything in place. -/
def optimizeMapsSite (uses : List MapUse) : MapSiteResult :=
  let unknownUses := uses.any fun u => !mapUseSafe u
  if unknownUses then ⟨uses.map fun _ => false, false⟩
  else ⟨uses.map fun _ => true, true⟩

/-- C5: a hashmapMake call whose uses are all calls to hashmapBinarySet or
hashmapStringSet is erased together with all of those update calls; a
hashmapMake call with at least one use of any other kind is left unchanged
along with all of its uses. -/
theorem optimizeMaps_correct (uses : List MapUse) :
    ((∀ u ∈ uses, mapUseSafe u = true) →
      optimizeMapsSite uses = ⟨uses.map fun _ => true, true⟩) ∧
    ((∃ u ∈ uses, mapUseSafe u = false) →
      optimizeMapsSite uses = ⟨uses.map fun _ => false, false⟩) := by
  constructor
  · intro hall
    have : (uses.any fun u => !mapUseSafe u) = false := by
      simp only [List.any_eq_false, Bool.not_eq_true']
      intro u hu
      simp [hall u hu]
    simp [optimizeMapsSite, this]
  · intro ⟨u, hu, hsafe⟩
    have : (uses.any fun u => !mapUseSafe u) = true :=
      List.any_eq_true.mpr ⟨u, hu, by simp [hsafe]⟩
    simp [optimizeMapsSite, this]

/-- C5 witness: a map only written through the two set intrinsics is erased
with both update calls; a map that is also loaded from is left unchanged. -/
theorem optimizeMaps_correct_witness :
    optimizeMapsSite [.callBinarySet, .callStringSet] =
      ⟨[true, true], true⟩ ∧
    optimizeMapsSite [.callBinarySet, .nonCall] = ⟨[false, false], false⟩ := by
  constructor
  · exact (optimizeMaps_correct [.callBinarySet, .callStringSet]).1 (by decide)
  · exact (optimizeMaps_correct [.callBinarySet, .nonCall]).2
      ⟨.nonCall, by simp, rfl⟩

/-! ## Claim C8: replacePanicsWithTrap (optimizer.go) -/

/-- A use of a panic function: either a call instruction whose called value is
the panic function itself, or any other kind of use. -/
inductive PanicUse where
  | directCall
  | otherUse
deriving DecidableEq

/-- Instructions at one panic call site after the pass, in program order. -/
inductive SiteInst where
  | trapCall
  | panicCall
deriving DecidableEq

/-- Processing of one use by replacePanicsWithTrap: for a direct call, a call
to llvm.trap is inserted immediately before it and the call itself is left in
place; for any other use the pass panics (modelled as none). -/
def rewritePanicUse : PanicUse → Option (List SiteInst)
  | .directCall => some [.trapCall, .panicCall]
  | .otherUse => none

/-- Loop of replacePanicsWithTrap over the uses of one panic function; none
models the Go panic aborting the pass. -/
def rewritePanicUses : List PanicUse → Option (List (List SiteInst))
  | [] => some []
  | u :: us =>
    match rewritePanicUse u with
    | none => none
    | some site =>
      match rewritePanicUses us with
      | none => none
      | some rest => some (site :: rest)

/-- Module state relevant to replacePanicsWithTrap: for each of
runtime._panic and runtime.runtimePanic, none when the function does not
exist in the module, otherwise its list of uses. -/
structure PanicModule where
  panicUses : Option (List PanicUse)
  runtimePanicUses : Option (List PanicUse)

/-- Per-function step of the pass: a missing function is skipped. -/
def rewritePanicFn : Option (List PanicUse) → Option (Option (List (List SiteInst)))
  | none => some none
  | some us => (rewritePanicUses us).map some

/-- replacePanicsWithTrap (optimizer.go): process runtime._panic, then
runtime.runtimePanic.  The pass fails hard (none) when any use of either
existing function is not a call to that function itself. -/
def replacePanicsWithTrap (m : PanicModule) :
    Option (Option (List (List SiteInst)) × Option (List (List SiteInst))) :=
  match rewritePanicFn m.panicUses with
  | none => none
  | some a =>
    match rewritePanicFn m.runtimePanicUses with
    | none => none
    | some b => some (a, b)

/-- Well-behaved use lists are rewritten to a trap-then-call site each. -/
theorem rewritePanicUses_all_direct (us : List PanicUse)
    (h : ∀ u ∈ us, u = PanicUse.directCall) :
    rewritePanicUses us = some (us.map fun _ => [.trapCall, .panicCall]) := by
  induction us with
  | nil => rfl
  | cons u us ih =>
      have hu := h u (by simp)
      subst hu
      simp only [rewritePanicUses, rewritePanicUse,
        ih fun u hu => h u (List.mem_cons_of_mem _ hu), List.map_cons]

/-- A use that is not a direct call makes the loop panic. -/
theorem rewritePanicUses_of_other (us : List PanicUse)
    (h : PanicUse.otherUse ∈ us) : rewritePanicUses us = none := by
  induction us with
  | nil => cases h
  | cons u us ih =>
      cases u with
      | otherUse => rfl
      | directCall =>
          have : PanicUse.otherUse ∈ us := by
            cases h with
            | tail _ h => exact h
          simp [rewritePanicUses, rewritePanicUse, ih this]

/-- C8: when the panic strategy is trap, for each of runtime._panic and
runtime.runtimePanic that exists in the module, replacePanicsWithTrap inserts
a call to llvm.trap immediately before every use and leaves the original call
in place; if any use of either existing function is not a call whose callee is
the panic function itself, the pass fails hard instead of recovering. -/
theorem replacePanicsWithTrap_correct (m : PanicModule) :
    ((∀ us, m.panicUses = some us → ∀ u ∈ us, u = PanicUse.directCall) →
     (∀ us, m.runtimePanicUses = some us → ∀ u ∈ us, u = PanicUse.directCall) →
     replacePanicsWithTrap m =
       some (m.panicUses.map fun us => us.map fun _ => [.trapCall, .panicCall],
             m.runtimePanicUses.map fun us => us.map fun _ => [.trapCall, .panicCall])) ∧
    ((∃ us, m.panicUses = some us ∧ PanicUse.otherUse ∈ us) →
      replacePanicsWithTrap m = none) ∧
    ((∃ us, m.runtimePanicUses = some us ∧ PanicUse.otherUse ∈ us) →
      replacePanicsWithTrap m = none) := by
  refine ⟨fun h1 h2 => ?_, fun ⟨us, hus, hmem⟩ => ?_, fun ⟨us, hus, hmem⟩ => ?_⟩
  · cases hp : m.panicUses with
    | none =>
        cases hr : m.runtimePanicUses with
        | none => simp [replacePanicsWithTrap, rewritePanicFn, hp, hr]
        | some us =>
            simp [replacePanicsWithTrap, rewritePanicFn, hp, hr,
              rewritePanicUses_all_direct us (h2 us hr)]
    | some us =>
        cases hr : m.runtimePanicUses with
        | none =>
            simp [replacePanicsWithTrap, rewritePanicFn, hp, hr,
              rewritePanicUses_all_direct us (h1 us hp)]
        | some vs =>
            simp [replacePanicsWithTrap, rewritePanicFn, hp, hr,
              rewritePanicUses_all_direct us (h1 us hp),
              rewritePanicUses_all_direct vs (h2 vs hr)]
  · simp [replacePanicsWithTrap, rewritePanicFn, hus,
      rewritePanicUses_of_other us hmem]
  · cases hp : m.panicUses with
    | none =>
        simp [replacePanicsWithTrap, rewritePanicFn, hp, hus,
          rewritePanicUses_of_other us hmem]
    | some vs =>
        cases hv : rewritePanicUses vs with
        | none => simp [replacePanicsWithTrap, rewritePanicFn, hp, hv]
        | some r =>
            simp [replacePanicsWithTrap, rewritePanicFn, hp, hv, hus,
              rewritePanicUses_of_other us hmem]

/-- C8 witness: a module where runtime._panic has two direct call uses and
runtime.runtimePanic is absent gets a trap inserted before each call; a
module where runtime.runtimePanic has a non-call use makes the pass fail. -/
theorem replacePanicsWithTrap_correct_witness :
    replacePanicsWithTrap ⟨some [.directCall, .directCall], none⟩ =
      some (some [[.trapCall, .panicCall], [.trapCall, .panicCall]], none) ∧
    replacePanicsWithTrap ⟨some [.directCall], some [.otherUse]⟩ = none := by
  constructor
  · exact (replacePanicsWithTrap_correct ⟨some [.directCall, .directCall], none⟩).1
      (by intro us h; cases h; decide) (by intro us h; cases h)
  · exact (replacePanicsWithTrap_correct ⟨some [.directCall], some [.otherUse]⟩).2.2
      ⟨[.otherUse], rfl, by simp⟩

/-! ## Claim C7: the Optimize pipeline driver (optimizer.go)

The driver is modelled as the trace of passes it runs, in order, together with
its result.  External services (the classical pass managers, the lowering
passes) appear as trace events; the flags that influence control flow
(optimization level, size level, panic strategy, precise GC, and whether
LowerGoroutines and the two verifications succeed on this module) are inputs.
-/

/-- One pass execution recorded by the driver model. -/
inductive PassEvent where
  | replacePanics
  | funcPassesAll
  | goModulePasses
  | optMaps
  | optStringToBytes
  | optAllocs
  | lowerInterfaces
  | lowerFuncValues
  | lowerIsnil
  | lowerGoroutines
  | setOptsizeAll
  | builderModulePasses
  | addGlobalsBitmap
deriving DecidableEq

/-- Driver inputs: configuration plus the success of the external services. -/
structure OptimizeConfig where
  optLevel : Nat
  sizeLevel : Nat
  inlinerThreshold : Nat
  panicStrategyTrap : Bool
  gcPrecise : Bool
  goroutinesOk : Bool
  verifyOk : Bool
  verifyGCOk : Bool

/-- Trace of the driver after the LowerGoroutines call succeeded: module
verification, the optsize attribute loop when sizeLevel is at least 2, the
second full function-pass run, the builder-populated module passes, and the
globals bitmap emission for a precise GC.  Empty when verification fails
(the driver returns early). -/
def optimizeTailEvents (c : OptimizeConfig) : List PassEvent :=
  if !c.verifyOk then []
  else
    (if 2 ≤ c.sizeLevel then [.setOptsizeAll] else []) ++
    [.funcPassesAll, .builderModulePasses] ++
    (if c.gcPrecise then [.addGlobalsBitmap] else [])

/-- Optimize (optimizer.go): the full ordered trace of passes the driver
runs over the module. -/
def optimizeTrace (c : OptimizeConfig) : List PassEvent :=
  (if c.panicStrategyTrap then [.replacePanics] else []) ++
  [.funcPassesAll] ++
  (if 0 < c.optLevel then
    [.goModulePasses,
     .optMaps, .optStringToBytes, .optAllocs, .lowerInterfaces, .lowerFuncValues,
     .goModulePasses,
     .optAllocs, .optStringToBytes,
     .lowerIsnil, .lowerGoroutines] ++
    (if c.goroutinesOk then optimizeTailEvents c else [])
  else
    [.lowerInterfaces, .lowerFuncValues, .lowerGoroutines] ++
    (if c.goroutinesOk then optimizeTailEvents c else []))

/-- C7: when the optimization level is positive, the driver runs the
language-specific passes in exactly this order between the two runs of the
module pass manager and before lowering goroutines: OptimizeMaps,
OptimizeStringToBytes, OptimizeAllocs, LowerInterfaces, LowerFuncValues;
then, after the second module-pass-manager run, OptimizeAllocs followed by
OptimizeStringToBytes, then the isnil lowering, then LowerGoroutines. -/
theorem optimize_pipeline_order (c : OptimizeConfig) (h : 0 < c.optLevel) :
    optimizeTrace c =
      (if c.panicStrategyTrap then [.replacePanics] else []) ++
      [.funcPassesAll] ++
      ([.goModulePasses] ++
       [.optMaps, .optStringToBytes, .optAllocs, .lowerInterfaces, .lowerFuncValues] ++
       [.goModulePasses] ++
       [.optAllocs, .optStringToBytes, .lowerIsnil, .lowerGoroutines]) ++
      (if c.goroutinesOk then optimizeTailEvents c else []) := by
  simp [optimizeTrace, h]

/-- C7 witness: concrete trace at optLevel 2, trap panics, size level 2,
precise GC, all external services succeeding. -/
theorem optimize_pipeline_order_witness :
    optimizeTrace ⟨2, 2, 225, true, true, true, true, true⟩ =
      [.replacePanics, .funcPassesAll,
       .goModulePasses,
       .optMaps, .optStringToBytes, .optAllocs, .lowerInterfaces, .lowerFuncValues,
       .goModulePasses,
       .optAllocs, .optStringToBytes, .lowerIsnil, .lowerGoroutines,
       .setOptsizeAll, .funcPassesAll, .builderModulePasses, .addGlobalsBitmap] := by
  rw [optimize_pipeline_order ⟨2, 2, 225, true, true, true, true, true⟩ (by decide)]
  decide

/-! ## Claim C3: default heap end on WebAssembly (wasm runtime support file)

On the wasm target uintptr is 32 bits (TargetBits = 32).  When the linker
does not provide _heap_end the runtime computes
heapEnd = (heapStart + wasmPageSize - 1) &^ (wasmPageSize - 1).
-/

/-- wasm page size: 64 KiB. -/
def wasmPageSize : Nat := 64 * 1024

/-- Bit width of uintptr on the wasm target. -/
def uintptrBits : Nat := 32

/-- Default heap end on wasm (wasm runtime support file): the expression
(heapStart + wasmPageSize - 1) &^ (wasmPageSize - 1) in 32-bit uintptr
arithmetic. -/
def wasmHeapEnd (heapStart : Nat) : Nat :=
  bitClear ((heapStart + wasmPageSize - 1) % 2 ^ uintptrBits) (wasmPageSize - 1)

/-- C3 counterexample: for the page-aligned heap start 65536, the computed
default heap end is 65536 itself, not heapStart + 65536 as claimed; the
expression rounds heapStart up to a page boundary instead of adding a page. -/
theorem wasmHeapEnd_claim_counterexample :
    wasmHeapEnd 65536 = 65536 ∧ (65536 : Nat) + 65536 ≠ 65536 := by
  constructor
  · show bitClear ((65536 + wasmPageSize - 1) % 2 ^ uintptrBits) (wasmPageSize - 1) = 65536
    have h1 : (65536 + wasmPageSize - 1) % 2 ^ uintptrBits = 131071 := by
      norm_num [wasmPageSize, uintptrBits]
    have h2 : wasmPageSize - 1 = 2 ^ 16 - 1 := by norm_num [wasmPageSize]
    rw [h1, h2, bitClear_two_pow_sub_one]
    norm_num
  · norm_num

/-- C3 (amended): when the linker does not provide _heap_end, the wasm
runtime defaults the heap end to heapStart rounded up to the next 64 KiB page
boundary (equal to heapStart when it is already page-aligned), which is at
most — not exactly — one page above __heap_base. -/
theorem wasmHeapEnd_amended (hs : Nat) (h : hs + wasmPageSize - 1 < 2 ^ uintptrBits) :
    wasmHeapEnd hs = wasmPageSize * ((hs + wasmPageSize - 1) / wasmPageSize) ∧
    hs ≤ wasmHeapEnd hs ∧
    wasmHeapEnd hs ≤ hs + wasmPageSize - 1 := by
  have h2 : wasmPageSize - 1 = 2 ^ 16 - 1 := by norm_num [wasmPageSize]
  have h3 : wasmPageSize = 2 ^ 16 := by norm_num [wasmPageSize]
  have hmain : wasmHeapEnd hs = 2 ^ 16 * ((hs + wasmPageSize - 1) / 2 ^ 16) := by
    unfold wasmHeapEnd
    rw [Nat.mod_eq_of_lt h, h2, bitClear_two_pow_sub_one_eq_div_mul]
  have hdm := Nat.div_add_mod (hs + wasmPageSize - 1) (2 ^ 16)
  have hlt : (hs + wasmPageSize - 1) % 2 ^ 16 < 2 ^ 16 :=
    Nat.mod_lt _ (by norm_num)
  refine ⟨by rw [hmain, h3], ?_, ?_⟩
  · rw [hmain]
    have : wasmPageSize = 65536 := by norm_num [wasmPageSize]
    omega
  · rw [hmain]
    omega

/-- C3 amended witness: heap start 70000 yields heap end 131072, the next
page boundary. -/
theorem wasmHeapEnd_amended_witness :
    wasmHeapEnd 70000 = 131072 := by
  have h := (wasmHeapEnd_amended 70000 (by norm_num [wasmPageSize, uintptrBits])).1
  rw [h]
  norm_num [wasmPageSize]

/-! ## Claim C6: GC initialization sanity check (gc_precise.go)

The constants bytesPerBlock and blocksPerStateByte are defined outside the
presented source; following the claim, blocksPerStateByte is 4 and
bytesPerBlock is a positive power of two, kept as a parameter b below.
-/

/-- Number of 2-bit block states packed per metadata byte. -/
def blocksPerStateByte : Nat := 4

/-- metadataSize computed by init (gc_precise.go). -/
def gcMetadataSize (hs he b : Nat) : Nat := (he - hs) / (blocksPerStateByte * b)

/-- poolStart computed by init (gc_precise.go): heapStart + metadataSize
aligned up to bytesPerBlock via bit clear. -/
def gcPoolStart (hs he b : Nat) : Nat :=
  bitClear (hs + gcMetadataSize hs he b + (b - 1)) (b - 1)

/-- poolEnd computed by init (gc_precise.go): heapEnd aligned down. -/
def gcPoolEnd (he b : Nat) : Nat := bitClear he (b - 1)

/-- Go uintptr subtraction x - y on a 32-bit target: wraps modulo 2 ^ 32. -/
def uintptrSub (x y : Nat) : Nat :=
  (x % 2 ^ uintptrBits + 2 ^ uintptrBits - y % 2 ^ uintptrBits) % 2 ^ uintptrBits

/-- numBlocks computed by init (gc_precise.go): (poolEnd - poolStart) /
bytesPerBlock, where the subtraction is uintptr subtraction and therefore
wraps to a huge value when poolStart exceeds poolEnd (possible for degenerate
heaps whose aligned pool is empty). -/
def gcNumBlocks (hs he b : Nat) : Nat :=
  uintptrSub (gcPoolEnd he b) (gcPoolStart hs he b) / b

/-- Success of the init sanity check (gc_precise.go): the assertion panics
exactly when metadataSize * blocksPerStateByte < numBlocks. -/
def gcInitAssertOk (hs he b : Nat) : Prop :=
  gcMetadataSize hs he b * blocksPerStateByte ≥ gcNumBlocks hs he b

instance gcInitAssertOkDec (hs he b : Nat) : Decidable (gcInitAssertOk hs he b) :=
  inferInstanceAs (Decidable (_ ≥ _))

/-- C6 counterexample: with bytesPerBlock = 16 = 2 ^ 4, heapStart = 16 and
heapEnd = 79 (total size 63 bytes), metadataSize is 0 yet the aligned pool
still contains 3 blocks, so the sanity check fails and the panic branch is
reachable. -/
theorem gcInit_claim_counterexample :
    (16 : Nat) ≤ 79 ∧ (16 : Nat) = 2 ^ 4 ∧ ¬ gcInitAssertOk 16 79 16 := by
  refine ⟨by norm_num, by norm_num, ?_⟩
  intro hok
  have h1 : gcMetadataSize 16 79 16 = 0 := by decide
  have h2 : gcNumBlocks 16 79 16 = 3 := by decide
  rw [gcInitAssertOk, h1, h2] at hok
  omega

/-- C6 (amended): the init computation — with the pool size
poolEnd - poolStart computed in wrapping 32-bit uintptr arithmetic —
satisfies metadataSize * blocksPerStateByte >= numBlocks, so the sanity-check
panic branch is unreachable, for every heapStart <= heapEnd with heapEnd
below 2 ^ 32 whose total size heapEnd - heapStart is a positive multiple of
blocksPerStateByte * bytesPerBlock.  For other configurations the check can
fail: for tiny unaligned heaps, and for zero-size heaps at unaligned starts
where poolStart exceeds poolEnd and the wrapped subtraction makes numBlocks
huge. -/
theorem gcInit_assert_amended (hs he b : Nat) (hle : hs ≤ he)
    (hhe : he < 2 ^ uintptrBits)
    (hdiv : (he - hs) % (blocksPerStateByte * 2 ^ b) = 0)
    (hpos : 0 < he - hs) :
    gcInitAssertOk hs he (2 ^ b) := by
  have hB : 0 < 2 ^ b := Nat.pos_pow_of_pos b (by norm_num)
  obtain ⟨k, hk⟩ : blocksPerStateByte * 2 ^ b ∣ he - hs := Nat.dvd_of_mod_eq_zero hdiv
  have hbps : blocksPerStateByte = 4 := rfl
  have hk1 : 0 < k := by
    rcases Nat.eq_zero_or_pos k with h0 | h1
    · subst h0
      rw [Nat.mul_zero] at hk
      omega
    · exact h1
  have hmeta : gcMetadataSize hs he (2 ^ b) = k := by
    unfold gcMetadataSize
    rw [hk]
    exact Nat.mul_div_cancel_left k (Nat.mul_pos (by norm_num [blocksPerStateByte]) hB)
  have hk2 : he - hs = 4 * (2 ^ b * k) := by rw [hk, hbps]; ring
  have e1 : k ≤ 2 ^ b * k := Nat.le_mul_of_pos_left k hB
  have e2 : 2 ^ b ≤ 2 ^ b * k := Nat.le_mul_of_pos_right (2 ^ b) hk1
  have hps_le : gcPoolStart hs he (2 ^ b) ≤ hs + k + (2 ^ b - 1) := by
    unfold gcPoolStart
    rw [hmeta, bitClear_two_pow_sub_one]
    omega
  have hps_ge : hs + k ≤ gcPoolStart hs he (2 ^ b) := by
    unfold gcPoolStart
    rw [hmeta, bitClear_two_pow_sub_one]
    have hmod := Nat.mod_lt (hs + k + (2 ^ b - 1)) hB
    omega
  have hnum : hs + k + (2 ^ b - 1) ≤ he := by omega
  have hmul : gcPoolStart hs he (2 ^ b) =
      2 ^ b * ((hs + k + (2 ^ b - 1)) / 2 ^ b) := by
    unfold gcPoolStart
    rw [hmeta, bitClear_two_pow_sub_one_eq_div_mul]
  have hpe_mul : gcPoolEnd he (2 ^ b) = 2 ^ b * (he / 2 ^ b) := by
    unfold gcPoolEnd
    rw [bitClear_two_pow_sub_one_eq_div_mul]
  have hps_pe : gcPoolStart hs he (2 ^ b) ≤ gcPoolEnd he (2 ^ b) := by
    rw [hmul, hpe_mul]
    exact Nat.mul_le_mul_left _ (Nat.div_le_div_right hnum)
  have hpe : gcPoolEnd he (2 ^ b) ≤ he := by
    unfold gcPoolEnd
    rw [bitClear_two_pow_sub_one]
    omega
  have hsub_eq : uintptrSub (gcPoolEnd he (2 ^ b)) (gcPoolStart hs he (2 ^ b)) =
      gcPoolEnd he (2 ^ b) - gcPoolStart hs he (2 ^ b) := by
    unfold uintptrSub
    unfold uintptrBits at hhe ⊢
    have h32 : (2 : Nat) ^ 32 = 4294967296 := by norm_num
    rw [h32] at hhe ⊢
    omega
  have hsub2 : gcPoolEnd he (2 ^ b) - gcPoolStart hs he (2 ^ b) ≤ he - hs - k := by
    omega
  have hnb : gcNumBlocks hs he (2 ^ b) ≤ (he - hs - k) / 2 ^ b := by
    unfold gcNumBlocks
    rw [hsub_eq]
    exact Nat.div_le_div_right hsub2
  have e3 : he - hs = 4 * k * 2 ^ b := by rw [hk, hbps]; ring
  have hpos4 : 0 < 4 * k * 2 ^ b := by positivity
  have hlt0 : he - hs - k < 4 * k * 2 ^ b := by
    rw [e3]
    exact Nat.sub_lt hpos4 hk1
  have hlt : (he - hs - k) / 2 ^ b < 4 * k :=
    (Nat.div_lt_iff_lt_mul hB).mpr hlt0
  unfold gcInitAssertOk
  rw [hmeta, hbps]
  omega

/-- C6 amended witness: heapStart 1024, heapEnd 5120 (total size 4096, a
positive multiple of 64) with bytesPerBlock 16 passes the sanity check. -/
theorem gcInit_assert_amended_witness :
    (1024 : Nat) ≤ 5120 ∧ (5120 : Nat) < 2 ^ uintptrBits ∧
    (5120 - 1024) % (blocksPerStateByte * 2 ^ 4) = 0 ∧ 0 < 5120 - 1024 ∧
    gcInitAssertOk 1024 5120 (2 ^ 4) :=
  ⟨by norm_num, by norm_num [uintptrBits], by norm_num [blocksPerStateByte],
   by norm_num,
   gcInit_assert_amended 1024 5120 4 (by norm_num) (by norm_num [uintptrBits])
     (by norm_num [blocksPerStateByte]) (by norm_num)⟩

/-! ## Claims C9 and C10: the precise GC mark phase (gc_precise.go)

The heap pool is modelled as numBlocks blocks of bytesPerBlock bytes starting
at poolStart; each block has one of the four 2-bit states and memory is a
function from word-aligned addresses to stored words.  markRoot and markRoots
are translated from gc_precise.go.  The block helpers (state, setState,
findHead, findNext, blockFromAddr, addressOnHeap) are not part of the
presented source files; they are modelled from the spec, sections 3 and 4.6:
an object is one head (or mark) block followed by zero or more tail blocks,
findHead walks tail links back to the head, findNext walks forward to the
next non-tail block, addressOnHeap accepts pool addresses.

The Go recursion carries no fuel; the model consumes one unit of fuel per
object scan and returns none when fuel runs out, so that termination of the
mark phase becomes a provable statement: any fuel of at least the number of
unmarked blocks suffices, for every memory content, including cyclic object
graphs.
-/

/-- Block states: 2 bits per block in the metadata array. -/
inductive BlockState where
  | free
  | head
  | tail
  | mark
deriving DecidableEq

/-- Pool geometry and the memory contents during one collection cycle. -/
structure GCPool where
  poolStart : Nat
  numBlocks : Nat
  bytesPerBlock : Nat
  mem : Nat → Nat

/-- The metadata array: state of every block, by block index. -/
abbrev HeapState := Nat → BlockState

/-- End of the pool. -/
def GCPool.poolEnd (c : GCPool) : Nat :=
  c.poolStart + c.numBlocks * c.bytesPerBlock

/-- addressOnHeap (modelled from the spec): the word lies inside the pool. -/
def addressOnHeap (c : GCPool) (p : Nat) : Bool :=
  decide (c.poolStart ≤ p) && decide (p < c.poolEnd)

/-- Index of the block containing a pool address (modelled from the spec). -/
def blockFromAddr (c : GCPool) (p : Nat) : Nat :=
  (p - c.poolStart) / c.bytesPerBlock

/-- Address of the first byte of a block (modelled from the spec). -/
def blockAddress (c : GCPool) (b : Nat) : Nat :=
  c.poolStart + b * c.bytesPerBlock

/-- setState: update the metadata entry of one block. -/
def setState (s : HeapState) (b : Nat) (st : BlockState) : HeapState :=
  fun i => if i = b then st else s i

/-- findHead (modelled from the spec): walk tail links backwards to the first
non-tail block of the object. -/
def findHead (s : HeapState) : Nat → Nat
  | 0 => 0
  | b + 1 => if s (b + 1) = .tail then findHead s b else b + 1

/-- Forward walk of findNext: the first index at least x whose state is not
tail, capped at the end of the pool. -/
def findNextFrom (s : HeapState) (stop : Nat) (x : Nat) : Nat :=
  if h : x < stop then
    (if s x = .tail then findNextFrom s stop (x + 1) else x)
  else stop
termination_by stop - x

/-- findNext (modelled from the spec): one past the last block of the object
that starts or continues at block b (a head or mark block is skipped first,
then tail blocks are consumed). -/
def findNext (c : GCPool) (s : HeapState) (b : Nat) : Nat :=
  findNextFrom s c.numBlocks (if s b = .head ∨ s b = .mark then b + 1 else b)

/-- uintptr size in bytes on the 32-bit wasm target. -/
def wordSize : Nat := 4

/-- Scan loop of markRoots (gc_precise.go): read every word of
[start, finish) in steps of wordSize and feed it to the root-marking function
f; none aborts the scan (out of fuel). -/
def markRootsGo (c : GCPool) (f : HeapState → Nat → Option HeapState)
    (s : HeapState) (start finish : Nat) : Option HeapState :=
  if start < finish then
    match f s (c.mem start) with
    | none => none
    | some s1 => markRootsGo c f s1 (start + wordSize) finish
  else some s
termination_by finish - start
decreasing_by simp [wordSize]; omega

/-- markRoot (gc_precise.go): when the word is a heap address whose object
head is not yet marked, set the head state to mark and recursively scan the
object payload with markRoots; a word pointing at an already-marked object,
or outside the pool, changes nothing.  One unit of fuel is consumed per
object scan (fuel 0 aborts a scan with none). -/
def markRoot (c : GCPool) : Nat → HeapState → Nat → Option HeapState
  | 0, s, root =>
    if addressOnHeap c root then
      if s (findHead s (blockFromAddr c root)) = .mark then some s
      else none
    else some s
  | fuel + 1, s, root =>
    if addressOnHeap c root then
      if s (findHead s (blockFromAddr c root)) = .mark then some s
      else
        markRootsGo c (markRoot c fuel)
          (setState s (findHead s (blockFromAddr c root)) .mark)
          (blockAddress c (findHead s (blockFromAddr c root)))
          (blockAddress c
            (findNext c (setState s (findHead s (blockFromAddr c root)) .mark)
              (blockFromAddr c root)))
    else some s

/-- markRoots (gc_precise.go): scan an address range for roots. -/
def markRoots (c : GCPool) (fuel : Nat) (s : HeapState) (start finish : Nat) :
    Option HeapState :=
  markRootsGo c (markRoot c fuel) s start finish

/-- Number of blocks not in state mark (the termination measure of the mark
phase). -/
def unmarkedCount (c : GCPool) (s : HeapState) : Nat :=
  (List.range c.numBlocks).countP fun b => decide (s b ≠ .mark)

/-- Strict countP decrease: if q implies p on l and some element of l
satisfies p but not q, then q counts strictly fewer elements than p. -/
theorem countP_lt_of_witness {p q : Nat → Bool} :
    ∀ l : List Nat, (∀ a ∈ l, q a = true → p a = true) →
      ∀ x, x ∈ l → p x = true → q x = false → l.countP q < l.countP p := by
  intro l
  induction l with
  | nil => intro _ x hx; cases hx
  | cons a l ih =>
      intro hmono x hx hpx hqx
      rw [List.countP_cons, List.countP_cons]
      have hmono2 : ∀ b ∈ l, q b = true → p b = true :=
        fun b hb => hmono b (List.mem_cons_of_mem _ hb)
      rcases List.mem_cons.mp hx with rfl | hx2
      · have hle : l.countP q ≤ l.countP p := List.countP_mono_left hmono2
        rw [hpx, hqx]
        simp only [Bool.false_eq_true, if_false, if_true]
        omega
      · have hlt := ih hmono2 x hx2 hpx hqx
        by_cases hqa : q a = true
        · rw [hqa, hmono a (List.mem_cons_self a l) hqa]
          omega
        · rw [Bool.not_eq_true] at hqa
          rw [hqa]
          by_cases hpa : p a = true
          · rw [hpa]
            simp only [if_true]
            simp only [Bool.false_eq_true, if_false]
            omega
          · rw [Bool.not_eq_true] at hpa
            rw [hpa]
            simp only [Bool.false_eq_true, if_false]
            omega

/-- Marking an unmarked block strictly decreases the unmarked count. -/
theorem unmarkedCount_setState_mark_lt (c : GCPool) (s : HeapState) {b : Nat}
    (hb : b < c.numBlocks) (hs : s b ≠ .mark) :
    unmarkedCount c (setState s b .mark) < unmarkedCount c s := by
  apply countP_lt_of_witness (x := b)
  · intro a _ hqa
    by_cases hab : a = b
    · subst hab
      simp [setState] at hqa
    · simpa [setState, hab] using hqa
  · exact List.mem_range.mpr hb
  · simpa using hs
  · simp [setState]

/-- A state with at least the same marks has at most the same unmarked
count. -/
theorem unmarkedCount_le_of_marks (c : GCPool) {s t : HeapState}
    (h : ∀ b, s b = .mark → t b = .mark) :
    unmarkedCount c t ≤ unmarkedCount c s := by
  apply List.countP_mono_left
  intro a _ ha
  simp only [decide_eq_true_eq] at ha ⊢
  intro hsa
  exact ha (h a hsa)

/-- findHead never walks forward. -/
theorem findHead_le (s : HeapState) : ∀ b, findHead s b ≤ b
  | 0 => Nat.le_refl 0
  | b + 1 => by
      unfold findHead
      by_cases h : s (b + 1) = .tail
      · rw [if_pos h]
        exact Nat.le_trans (findHead_le s b) (Nat.le_succ b)
      · rw [if_neg h]

/-- A pool address falls in a valid block. -/
theorem blockFromAddr_lt (c : GCPool) (hB : 0 < c.bytesPerBlock) {p : Nat}
    (hp : addressOnHeap c p = true) : blockFromAddr c p < c.numBlocks := by
  unfold addressOnHeap at hp
  rw [Bool.and_eq_true, decide_eq_true_eq, decide_eq_true_eq] at hp
  obtain ⟨h1, h2⟩ := hp
  unfold GCPool.poolEnd at h2
  unfold blockFromAddr
  rw [Nat.div_lt_iff_lt_mul hB]
  omega

/-- The scan loop preserves marks when the root-marking function does. -/
theorem markRootsGo_preserves (c : GCPool)
    (f : HeapState → Nat → Option HeapState)
    (hf : ∀ s r s1, f s r = some s1 → ∀ b, s b = .mark → s1 b = .mark) :
    ∀ (n start finish : Nat), finish - start ≤ n → ∀ s s1,
      markRootsGo c f s start finish = some s1 →
      ∀ b, s b = .mark → s1 b = .mark := by
  intro n
  induction n with
  | zero =>
      intro start finish hn s s1 hrun
      unfold markRootsGo at hrun
      rw [if_neg (by omega)] at hrun
      cases hrun
      exact fun b hb => hb
  | succ n ih =>
      intro start finish hn s s1 hrun
      unfold markRootsGo at hrun
      by_cases hlt : start < finish
      · rw [if_pos hlt] at hrun
        cases hstep : f s (c.mem start) with
        | none => rw [hstep] at hrun; cases hrun
        | some s2 =>
            rw [hstep] at hrun
            intro b hb
            exact ih (start + wordSize) finish (by unfold wordSize; omega) s2 s1
              hrun b (hf s (c.mem start) s2 hstep b hb)
      · rw [if_neg hlt] at hrun
        cases hrun
        exact fun b hb => hb

/-- markRoot only adds marks, never removes any. -/
theorem markRoot_preserves (c : GCPool) :
    ∀ (fuel : Nat) (s : HeapState) (root : Nat) (s1 : HeapState),
      markRoot c fuel s root = some s1 → ∀ b, s b = .mark → s1 b = .mark := by
  intro fuel
  induction fuel with
  | zero =>
      intro s root s1 hrun
      unfold markRoot at hrun
      by_cases hheap : addressOnHeap c root
      · rw [if_pos hheap] at hrun
        by_cases hm : s (findHead s (blockFromAddr c root)) = .mark
        · rw [if_pos hm] at hrun
          cases hrun
          exact fun b hb => hb
        · rw [if_neg hm] at hrun
          cases hrun
      · rw [if_neg hheap] at hrun
        cases hrun
        exact fun b hb => hb
  | succ fuel ih =>
      intro s root s1 hrun
      unfold markRoot at hrun
      by_cases hheap : addressOnHeap c root
      · rw [if_pos hheap] at hrun
        by_cases hm : s (findHead s (blockFromAddr c root)) = .mark
        · rw [if_pos hm] at hrun
          cases hrun
          exact fun b hb => hb
        · rw [if_neg hm] at hrun
          intro b hb
          have hset : setState s (findHead s (blockFromAddr c root)) .mark b = .mark := by
            unfold setState
            by_cases hab : b = findHead s (blockFromAddr c root) <;> simp [hab, hb]
          exact markRootsGo_preserves c (markRoot c fuel) ih _ _ _ (Nat.le_refl _)
            _ _ hrun b hset
      · rw [if_neg hheap] at hrun
        cases hrun
        exact fun b hb => hb

/-- The scan loop succeeds whenever the root-marking function succeeds below
the fuel bound and preserves marks. -/
theorem markRootsGo_total (c : GCPool) (f : HeapState → Nat → Option HeapState)
    (F : Nat)
    (hf : ∀ s r, unmarkedCount c s ≤ F →
      ∃ s1, f s r = some s1 ∧ ∀ b, s b = .mark → s1 b = .mark) :
    ∀ (n start finish : Nat) (s : HeapState), finish - start ≤ n →
      unmarkedCount c s ≤ F →
      ∃ s1, markRootsGo c f s start finish = some s1 ∧
        ∀ b, s b = .mark → s1 b = .mark := by
  intro n
  induction n with
  | zero =>
      intro start finish s hn hU
      refine ⟨s, ?_, fun b hb => hb⟩
      unfold markRootsGo
      rw [if_neg (by omega)]
  | succ n ih =>
      intro start finish s hn hU
      by_cases hlt : start < finish
      · obtain ⟨s2, hstep, hpres⟩ := hf s (c.mem start) hU
        have hU2 : unmarkedCount c s2 ≤ F :=
          Nat.le_trans (unmarkedCount_le_of_marks c hpres) hU
        obtain ⟨s1, hrun, hpres2⟩ :=
          ih (start + wordSize) finish s2 (by unfold wordSize; omega) hU2
        refine ⟨s1, ?_, fun b hb => hpres2 b (hpres b hb)⟩
        unfold markRootsGo
        rw [if_pos hlt, hstep]
        exact hrun
      · refine ⟨s, ?_, fun b hb => hb⟩
        unfold markRootsGo
        rw [if_neg hlt]

/-- markRoot succeeds — the scan bottoms out — whenever the fuel is at least
the number of unmarked blocks; moreover it only adds marks, and when the root
is a pool address the head of its object is marked afterwards. -/
theorem markRoot_total (c : GCPool) (hB : 0 < c.bytesPerBlock) :
    ∀ (fuel : Nat) (s : HeapState) (root : Nat),
      unmarkedCount c s ≤ fuel →
      ∃ s1, markRoot c fuel s root = some s1 ∧
        (∀ b, s b = .mark → s1 b = .mark) ∧
        (addressOnHeap c root = true →
          s1 (findHead s (blockFromAddr c root)) = .mark) := by
  intro fuel
  induction fuel with
  | zero =>
      intro s root hU
      by_cases hheap : addressOnHeap c root
      · by_cases hm : s (findHead s (blockFromAddr c root)) = .mark
        · refine ⟨s, ?_, fun b hb => hb, fun _ => hm⟩
          unfold markRoot
          rw [if_pos hheap, if_pos hm]
        · exfalso
          have hblt : blockFromAddr c root < c.numBlocks := blockFromAddr_lt c hB hheap
          have hhle : findHead s (blockFromAddr c root) ≤ blockFromAddr c root :=
            findHead_le s _
          have hpos : 0 < unmarkedCount c s := by
            apply List.countP_pos_iff.mpr
            exact ⟨findHead s (blockFromAddr c root),
              List.mem_range.mpr (by omega), by simpa using hm⟩
          omega
      · refine ⟨s, ?_, fun b hb => hb, fun hc => absurd hc hheap⟩
        unfold markRoot
        rw [if_neg hheap]
  | succ fuel ih =>
      intro s root hU
      by_cases hheap : addressOnHeap c root
      · by_cases hm : s (findHead s (blockFromAddr c root)) = .mark
        · refine ⟨s, ?_, fun b hb => hb, fun _ => hm⟩
          unfold markRoot
          rw [if_pos hheap, if_pos hm]
        · have hblt : blockFromAddr c root < c.numBlocks := blockFromAddr_lt c hB hheap
          have hhlt : findHead s (blockFromAddr c root) < c.numBlocks :=
            Nat.lt_of_le_of_lt (findHead_le s _) hblt
          have hdec := unmarkedCount_setState_mark_lt c s hhlt hm
          have hU1 :
              unmarkedCount c (setState s (findHead s (blockFromAddr c root)) .mark)
                ≤ fuel := by omega
          obtain ⟨s1, hrun, hpres⟩ :=
            markRootsGo_total c (markRoot c fuel) fuel
              (fun s r hUs => (ih s r hUs).imp fun s2 h => ⟨h.1, h.2.1⟩)
              (blockAddress c
                  (findNext c (setState s (findHead s (blockFromAddr c root)) .mark)
                    (blockFromAddr c root))
                - blockAddress c (findHead s (blockFromAddr c root)))
              (blockAddress c (findHead s (blockFromAddr c root)))
              (blockAddress c
                (findNext c (setState s (findHead s (blockFromAddr c root)) .mark)
                  (blockFromAddr c root)))
              (setState s (findHead s (blockFromAddr c root)) .mark)
              (Nat.le_refl _) hU1
          refine ⟨s1, ?_, ?_, ?_⟩
          · unfold markRoot
            rw [if_pos hheap, if_neg hm]
            exact hrun
          · intro b hb
            apply hpres
            unfold setState
            by_cases hab : b = findHead s (blockFromAddr c root) <;> simp [hab, hb]
          · intro _
            apply hpres
            unfold setState
            simp
      · refine ⟨s, ?_, fun b hb => hb, fun hc => absurd hc hheap⟩
        unfold markRoot
        rw [if_neg hheap]

/-- C10: markRoot sets the head block of an object to mark before recursively
scanning its payload and never rescans an object whose head is already
marked; hence, with fuel at least the number of unmarked blocks (at most
numBlocks), each heap object is scanned at most once, the recursive mark
phase terminates even when heap objects reference one another cyclically, and
the scan of an already-marked object leaves the heap state unchanged. -/
theorem gc_markRoot_terminates (c : GCPool) (hB : 0 < c.bytesPerBlock)
    (fuel : Nat) (s : HeapState) (root : Nat)
    (hfuel : unmarkedCount c s ≤ fuel) :
    (∃ s1, markRoot c fuel s root = some s1 ∧
       (∀ b, s b = .mark → s1 b = .mark) ∧
       (addressOnHeap c root = true →
         s1 (findHead s (blockFromAddr c root)) = .mark)) ∧
    (s (findHead s (blockFromAddr c root)) = .mark →
      markRoot c fuel s root = some s) := by
  refine ⟨markRoot_total c hB fuel s root hfuel, fun hm => ?_⟩
  cases fuel with
  | zero =>
      unfold markRoot
      by_cases hheap : addressOnHeap c root
      · rw [if_pos hheap, if_pos hm]
      · rw [if_neg hheap]
  | succ fuel =>
      unfold markRoot
      by_cases hheap : addressOnHeap c root
      · rw [if_pos hheap, if_pos hm]
      · rw [if_neg hheap]

/-- C10 witness: a two-block pool at address 100 (blocks of 4 bytes) holding
one object of one head and one tail block whose payload words all point back
at the object itself (a cyclic object graph); with fuel 2 (the unmarked
count) the mark of root 100 terminates. -/
theorem gc_markRoot_terminates_witness :
    0 < (4 : Nat) ∧
    unmarkedCount ⟨100, 2, 4, fun _ => 100⟩
        (fun b => if b = 0 then .head else if b = 1 then .tail else .free) ≤ 2 ∧
    (markRoot ⟨100, 2, 4, fun _ => 100⟩ 2
        (fun b => if b = 0 then .head else if b = 1 then .tail else .free)
        100).isSome = true := by
  refine ⟨by norm_num, by decide, ?_⟩
  obtain ⟨⟨s1, hrun, _⟩, _⟩ :=
    gc_markRoot_terminates ⟨100, 2, 4, fun _ => 100⟩ (by norm_num) 2
      (fun b => if b = 0 then .head else if b = 1 then .tail else .free)
      100 (by decide)
  rw [hrun]
  rfl

/-! ## Claim C9: the wasm stack scan is empty -/

/-- getCurrentStackPointer (wasm runtime support file): wasm has no
instruction to read the stack pointer, so the function returns stackTop. -/
def getCurrentStackPointer (stackTop : Nat) : Nat := stackTop

/-- Tracked-globals data read by markGlobals: the start address of the
tracked region, the number of pointer-sized slots, and the byte bitmap. -/
structure TrackedGlobals where
  start : Nat
  length : Nat
  bitmap : List Nat

/-- Bitmap test of markGlobals (gc_precise.go):
trackedGlobalsBitmap[i/8] & (1 << (i%8)) != 0. -/
def globalBitSet (g : TrackedGlobals) (i : Nat) : Bool :=
  (g.bitmap.getD (i / 8) 0) &&& (1 <<< (i % 8)) != 0

/-- markGlobals loop (gc_precise.go) from slot i upward: every slot with a
set bitmap bit is loaded and passed to markRoot. -/
def markGlobalsFrom (c : GCPool) (fuel : Nat) (g : TrackedGlobals)
    (s : HeapState) (i : Nat) : Option HeapState :=
  if i < g.length then
    if globalBitSet g i then
      match markRoot c fuel s (c.mem (g.start + i * wordSize)) with
      | none => none
      | some s1 => markGlobalsFrom c fuel g s1 (i + 1)
    else markGlobalsFrom c fuel g s (i + 1)
  else some s
termination_by g.length - i
decreasing_by all_goals omega

/-- markGlobals (gc_precise.go). -/
def markGlobals (c : GCPool) (fuel : Nat) (g : TrackedGlobals)
    (s : HeapState) : Option HeapState :=
  markGlobalsFrom c fuel g s 0

/-- Mark phase of GC (gc_precise.go): mark the tracked globals, then scan the
stack range from the current stack pointer up to the stack top (descending
stack). -/
def gcMarkPhase (c : GCPool) (fuel : Nat) (g : TrackedGlobals)
    (stackTop : Nat) (s : HeapState) : Option HeapState :=
  match markGlobals c fuel g s with
  | none => none
  | some s1 => markRoots c fuel s1 (getCurrentStackPointer stackTop) stackTop

/-- C9: on the wasm target getCurrentStackPointer returns stackTop, so the
stack root scan markRoots(getCurrentStackPointer(), stackTop) invoked by GC
iterates over an empty address range and marks no stack roots: in every GC
cycle the mark phase marks exactly the roots found among the tracked
globals. -/
theorem gc_wasm_marks_only_globals (c : GCPool) (fuel : Nat)
    (g : TrackedGlobals) (stackTop : Nat) (s : HeapState) :
    gcMarkPhase c fuel g stackTop s = markGlobals c fuel g s := by
  unfold gcMarkPhase
  cases h : markGlobals c fuel g s with
  | none => rfl
  | some s1 =>
      show markRoots c fuel s1 (getCurrentStackPointer stackTop) stackTop = some s1
      unfold markRoots markRootsGo getCurrentStackPointer
      rw [if_neg (Nat.lt_irrefl stackTop)]

end TinyGo
